import Mathlib

/-!
Verification of the mcp-ssh core (connection pool, command executor, hang
watchdog, job supervisor, snapshot store) against its natural-language
specification.  Each TypeScript module is shallowly embedded as pure Lean
functions; remote-side effects (commands issued over SSH) are modelled as the
lists of command strings the code would send, and the remote side's replies
are taken as explicit inputs.  Times are naturals counting milliseconds
(`Date.now()` readings); JavaScript number arithmetic on these values never
overflows in the modelled ranges, and the one place the code can form a
negative value (a retention cutoff earlier than epoch) is noted at the
definition it concerns.
-/

/-! ## Snapshot store (`snapshot-manager.ts`)

`SnapshotMetadata` mirrors the record type of `types.ts`: `ts` is the ISO
creation timestamp, modelled directly as its epoch-milliseconds value `tsMs`
(the code only ever consumes `new Date(ts).getTime()`).  The optional
`backup` and `commit` fields keep their optionality. -/

inductive SnapType where
  | sftp
  | git
  | tar
deriving DecidableEq, Repr

structure SnapshotMetadata where
  tsMs : Nat
  id : String
  type : SnapType
  host : String
  path : String
  backup : Option String := none
  commit : Option String := none
deriving DecidableEq, Repr

/-- The ordering the `list` comparator `(a, b) => getTime(b.ts) - getTime(a.ts)`
induces: `a` sorts no later than `b` iff `b`'s timestamp is `≤` `a`'s.
JavaScript's `Array.prototype.sort` is stable, so the sort is modelled by
stable insertion sort with this relation. -/
def tsDescRel (a b : SnapshotMetadata) : Prop :=
  b.tsMs ≤ a.tsMs

instance : DecidableRel tsDescRel := fun a b =>
  inferInstanceAs (Decidable (b.tsMs ≤ a.tsMs))

instance : IsTotal SnapshotMetadata tsDescRel :=
  ⟨fun a b => Nat.le_total b.tsMs a.tsMs⟩

instance : IsTrans SnapshotMetadata tsDescRel :=
  ⟨fun _ _ _ h h' => Nat.le_trans h' h⟩

def sortByTsDesc (l : List SnapshotMetadata) : List SnapshotMetadata :=
  l.insertionSort tsDescRel

/-- `SnapshotManager.list(hostName?, limit)`: filter by host when given, sort
by timestamp descending, truncate to `limit`.  The local metadata file is
modelled as the list of its parsed records (`list` drops unparseable lines
before this point). -/
def listSnapshots (log : List SnapshotMetadata) (hostName : Option String)
    (limit : Nat) : List SnapshotMetadata :=
  let snapshots := match hostName with
    | some h => log.filter (fun s => s.host == h)
    | none => log
  (sortByTsDesc snapshots).take limit

/-- Split a character list at `'/'` separators (an executable stand-in for
`String.splitOn "/"`). -/
def splitOnSlash : List Char → List (List Char)
  | [] => [[]]
  | c :: rest =>
    if c = '/' then [] :: splitOnSlash rest
    else match splitOnSlash rest with
      | [] => [[c]]
      | g :: gs => (c :: g) :: gs

/-- Modelled from Node's `path.dirname` for POSIX paths without trailing
slashes (the only shapes the snapshot store produces). -/
def dirnamePosix (p : String) : String :=
  let parts := splitOnSlash p.data
  let joined := List.intercalate ['/'] parts.dropLast
  if joined.isEmpty then (if p.data.head? = some '/' then "/" else ".")
  else String.mk joined

inductive RestoreError where
  | snapshotNotFound (id : String)
  | corruptRecord (msg : String)
deriving DecidableEq, Repr

/-- Result of a successful restore: the shell command issued to the remote
host, and the summary text returned to the caller. -/
structure RestoreAction where
  command : String
  summary : String
deriving DecidableEq, Repr

def restoreGit (s : SnapshotMetadata) : Except RestoreError RestoreAction :=
  match s.commit with
  | none => .error (.corruptRecord "Git snapshot missing commit hash")
  | some c =>
    -- `if (!snapshot.commit)`: the empty string is falsy in JavaScript.
    if c = "" then .error (.corruptRecord "Git snapshot missing commit hash")
    else
      let p := s.path
      let short := c.take 8
      .ok { command := s!"cd \"{p}\" && git checkout {c}",
            summary := s!"Restored git commit {short} in {p}" }

def restoreTar (s : SnapshotMetadata) : Except RestoreError RestoreAction :=
  match s.backup with
  | none => .error (.corruptRecord "Tar snapshot missing backup path")
  | some b =>
    if b = "" then .error (.corruptRecord "Tar snapshot missing backup path")
    else
      let p := s.path
      let parent := dirnamePosix p
      .ok { command := s!"tar -xzf \"{b}\" -C \"{parent}\"",
            summary := s!"Restored {p} from tar backup" }

def restoreFile (s : SnapshotMetadata) : Except RestoreError RestoreAction :=
  match s.backup with
  | none => .error (.corruptRecord "File snapshot missing backup path")
  | some b =>
    if b = "" then .error (.corruptRecord "File snapshot missing backup path")
    else
      let p := s.path
      .ok { command := s!"cp \"{b}\" \"{p}\"",
            summary := s!"Restored file {p}" }

/-- `SnapshotManager.restore(snapshotId)`: look the id up among the 1000 most
recent records and dispatch on the variant tag. -/
def restoreSnapshot (log : List SnapshotMetadata) (snapshotId : String) :
    Except RestoreError RestoreAction :=
  match (listSnapshots log none 1000).find? (fun s => s.id == snapshotId) with
  | none => .error (.snapshotNotFound snapshotId)
  | some s =>
    match s.type with
    | .git => restoreGit s
    | .tar => restoreTar s
    | .sftp => restoreFile s

structure SnapshotRetention where
  maxAgeDays : Nat
  maxSizeMB : Nat
  keepMinCount : Nat
deriving DecidableEq, Repr

/-- `Date.now() - retention.maxAgeDays * 24*60*60*1000`.  In JavaScript this
can go negative (cutoff before the epoch), in which case no record is older
than it; truncated `Nat` subtraction yields `0` there, and no `tsMs` is `< 0`
either, so the two agree. -/
def cutoffMs (now : Nat) (maxAgeDays : Nat) : Nat :=
  now - maxAgeDays * 24 * 60 * 60 * 1000

/-- `removeSnapshot`: the remote commands it issues — `rm -rf` of the backup
artifact when the record has one, nothing otherwise.  It never touches the
local metadata log. -/
def removeSnapshotCmds (s : SnapshotMetadata) : List String :=
  match s.backup with
  | some b => [s!"rm -rf \"{b}\""]
  | none => []

/-- The position a record at position `i` of `snaps` has inside its host's
group: `cleanup` builds `byHost` by pushing records in `snaps` order, so
`hostSnapshots.indexOf(snapshot)` (reference equality on distinct parsed
objects) is the number of earlier records of the same host. -/
def hostIndexAt (snaps : List SnapshotMetadata) (i : Nat)
    (s : SnapshotMetadata) : Nat :=
  ((snaps.take i).filter (fun t => t.host == s.host)).length

/-- The records `cleanup` removes, in traversal order: those at host-group
index `≥ keepMinCount` whose timestamp is older than the cutoff. -/
def cleanupRemovedOf (ret : SnapshotRetention) (now : Nat)
    (snaps : List SnapshotMetadata) : List SnapshotMetadata :=
  (snaps.enum.filter (fun p =>
    ret.keepMinCount ≤ hostIndexAt snaps p.1 p.2 ∧ p.2.tsMs < cutoffMs now ret.maxAgeDays)).map
    Prod.snd

/-- The records `cleanup(hostName?)` removes: it loads
`list(hostName, 10000)` and walks it. -/
def cleanupRemoved (ret : SnapshotRetention) (now : Nat)
    (log : List SnapshotMetadata) (hostName : Option String) :
    List SnapshotMetadata :=
  cleanupRemovedOf ret now (listSnapshots log hostName 10000)

/-- The count `cleanup` returns. -/
def cleanupCount (ret : SnapshotRetention) (now : Nat)
    (log : List SnapshotMetadata) (hostName : Option String) : Nat :=
  (cleanupRemoved ret now log hostName).length

/-- The remote deletion commands `cleanup` issues, in order. -/
def cleanupCmds (ret : SnapshotRetention) (now : Nat)
    (log : List SnapshotMetadata) (hostName : Option String) : List String :=
  ((cleanupRemoved ret now log hostName).map removeSnapshotCmds).flatten

/-- `cleanup` as a transition on the snapshot store's local state (the
metadata log): it returns the removal count and the remote deletion commands
and leaves the log as it found it — `removeSnapshot` deletes remote artifacts
only and performs no local write. -/
def cleanupStore (ret : SnapshotRetention) (now : Nat) (hostName : Option String)
    (log : List SnapshotMetadata) :
    List SnapshotMetadata × Nat × List String :=
  (log, cleanupCount ret now log hostName, cleanupCmds ret now log hostName)

example :
    listSnapshots
      [{ tsMs := 5, id := "a", type := .tar, host := "h", path := "/p", backup := some "/b1" },
       { tsMs := 9, id := "b", type := .tar, host := "h", path := "/p", backup := some "/b2" },
       { tsMs := 7, id := "c", type := .tar, host := "g", path := "/p", backup := some "/b3" }]
      (some "h") 20 =
      [{ tsMs := 9, id := "b", type := .tar, host := "h", path := "/p", backup := some "/b2" },
       { tsMs := 5, id := "a", type := .tar, host := "h", path := "/p", backup := some "/b1" }] := by
  decide

example :
    cleanupCount { maxAgeDays := 0, maxSizeMB := 100, keepMinCount := 1 } 100
      [{ tsMs := 5, id := "a", type := .tar, host := "h", path := "/p", backup := some "/b1" },
       { tsMs := 9, id := "b", type := .tar, host := "h", path := "/p", backup := some "/b2" }]
      none = 1 := by
  decide

/-! ### Basic membership lemmas for the snapshot store -/

theorem mem_sortByTsDesc {s : SnapshotMetadata} {l : List SnapshotMetadata} :
    s ∈ sortByTsDesc l ↔ s ∈ l := by
  simp [sortByTsDesc, List.mem_insertionSort]

theorem mem_log_of_mem_listSnapshots {s : SnapshotMetadata}
    {log : List SnapshotMetadata} {hostName : Option String} {limit : Nat}
    (h : s ∈ listSnapshots log hostName limit) : s ∈ log := by
  unfold listSnapshots at h
  have h1 := mem_sortByTsDesc.mp (List.mem_of_mem_take h)
  cases hostName with
  | none => exact h1
  | some hn => exact List.mem_of_mem_filter h1

theorem host_eq_of_mem_listSnapshots {s : SnapshotMetadata}
    {log : List SnapshotMetadata} {hn : String} {limit : Nat}
    (h : s ∈ listSnapshots log (some hn) limit) : s.host = hn := by
  unfold listSnapshots at h
  have h1 := mem_sortByTsDesc.mp (List.mem_of_mem_take h)
  have := List.of_mem_filter h1
  simpa using this

theorem mem_snaps_of_mem_cleanupRemovedOf {s : SnapshotMetadata}
    {ret : SnapshotRetention} {now : Nat} {snaps : List SnapshotMetadata}
    (h : s ∈ cleanupRemovedOf ret now snaps) : s ∈ snaps := by
  unfold cleanupRemovedOf at h
  obtain ⟨⟨i, t⟩, hmem, rfl⟩ := List.mem_map.mp h
  have h2 := List.mem_filter.mp hmem
  have h3 : (i, t) ∈ snaps.enum := h2.1
  have h4 := List.mk_mem_enum_iff_getElem?.mp h3
  exact List.getElem?_mem h4

theorem mem_cleanupRemoved_subset {s : SnapshotMetadata}
    {ret : SnapshotRetention} {now : Nat} {log : List SnapshotMetadata}
    {hostName : Option String} (h : s ∈ cleanupRemoved ret now log hostName) :
    s ∈ listSnapshots log hostName 10000 :=
  mem_snaps_of_mem_cleanupRemovedOf h

/-! ### Concrete snapshot data used by counterexamples and witnesses -/

def exSnapNew : SnapshotMetadata :=
  { tsMs := 90, id := "snap_new", type := .tar, host := "h", path := "/data/app",
    backup := some "/logs/snapshots/90/app.tar.gz" }

def exSnapOld : SnapshotMetadata :=
  { tsMs := 10, id := "snap_old", type := .tar, host := "h", path := "/data/app",
    backup := some "/logs/snapshots/10/app.tar.gz" }

def exRet : SnapshotRetention :=
  { maxAgeDays := 1, maxSizeMB := 100, keepMinCount := 1 }

def exLog : List SnapshotMetadata := [exSnapNew, exSnapOld]

def exNow : Nat := 100000000

/-- C3 counterexample.  `cleanup` removes `exSnapOld` (its backup artifact is
deleted remotely), the metadata log is untouched, and a subsequent `list`
STILL returns the removed record: `list` has no notion of removed records and
filters nothing out, contradicting the claim's "a subsequent list does not
return the removed record". -/
theorem snapshot_removed_not_filtered_cex :
    exSnapOld ∈ cleanupRemoved exRet exNow exLog none ∧
    (cleanupStore exRet exNow none exLog).1 = exLog ∧
    exSnapOld ∈ listSnapshots (cleanupStore exRet exNow none exLog).1 none 20 := by
  decide

/-- C3 (amended): every record `cleanup` removes remains physically present in
the local metadata log (cleanup never rewrites it), and — there being no
read-time filtering of removed records — a subsequent `list` still returns
it among the records it considers. -/
theorem snapshot_removed_remains_listed (ret : SnapshotRetention) (now : Nat)
    (hostName : Option String) (log : List SnapshotMetadata)
    (r : SnapshotMetadata) (h : r ∈ cleanupRemoved ret now log hostName) :
    (cleanupStore ret now hostName log).1 = log ∧
    r ∈ log ∧
    r ∈ listSnapshots log hostName 10000 :=
  ⟨rfl, mem_log_of_mem_listSnapshots (mem_cleanupRemoved_subset h),
    mem_cleanupRemoved_subset h⟩

/-- Witness for C3's amended theorem at a concrete store state. -/
theorem snapshot_removed_remains_listed_witness :
    (cleanupStore exRet exNow none exLog).1 = exLog ∧
    exSnapOld ∈ exLog ∧
    exSnapOld ∈ listSnapshots exLog none 10000 :=
  snapshot_removed_remains_listed exRet exNow none exLog exSnapOld (by decide)

/-- The metadata record `create` appends for a version-controlled path: it
records the commit hash and has no backup artifact. -/
def gitSnapshotMeta (tsMs : Nat) (sid hostName path commit : String) :
    SnapshotMetadata :=
  { tsMs := tsMs, id := sid, type := .git, host := hostName, path := path,
    commit := some commit }

/-- C10: `cleanup` leaves the metadata log exactly as it found it, so a second
`cleanup` over the same log with the same clock reading (no intervening
`create`) selects the same records, returns the same count, and re-issues the
same remote deletion commands; and a record without a backup path — in
particular any git-variant record, which `create` builds without one — is
counted among the removals while no deletion command is issued for it. -/
theorem snapshot_cleanup_repeat_same (ret : SnapshotRetention) (now : Nat)
    (hostName : Option String) (log : List SnapshotMetadata) :
    (cleanupStore ret now hostName log).1 = log ∧
    cleanupStore ret now hostName (cleanupStore ret now hostName log).1 =
      cleanupStore ret now hostName log ∧
    cleanupCount ret now log hostName =
      (cleanupRemoved ret now log hostName).length ∧
    (∀ s ∈ cleanupRemoved ret now log hostName, s.backup = none →
      removeSnapshotCmds s = []) ∧
    (∀ t sid hn p c, (gitSnapshotMeta t sid hn p c).backup = none ∧
      removeSnapshotCmds (gitSnapshotMeta t sid hn p c) = []) := by
  refine ⟨rfl, rfl, rfl, ?_, ?_⟩
  · intro s _ hb
    simp [removeSnapshotCmds, hb]
  · intro t sid hn p c
    exact ⟨rfl, rfl⟩

/-- C2: `restore` dispatch.  If the id occurs nowhere in the log it fails with
`SnapshotNotFound`; for the record found among the 1000 most recent entries it
dispatches by variant: git checks out the recorded revision in the original
path, tar extracts the archive into the path's parent directory, sftp copies
the backup over the original path, each returning a summary text; and a found
record whose variant-required reference field is missing fails with
`CorruptRecord`. -/
theorem snapshot_restore_dispatch (log : List SnapshotMetadata) (sid : String)
    (s : SnapshotMetadata) :
    ((∀ r ∈ log, r.id ≠ sid) →
      restoreSnapshot log sid = .error (.snapshotNotFound sid)) ∧
    ((listSnapshots log none 1000).find? (fun t => t.id == sid) = some s →
      ((s.type = .git → s.commit = none →
        restoreSnapshot log sid =
          .error (.corruptRecord "Git snapshot missing commit hash")) ∧
      (∀ c, s.type = .git → s.commit = some c → c ≠ "" →
        restoreSnapshot log sid =
          .ok { command := "cd \"" ++ s.path ++ "\" && git checkout " ++ c,
                summary := "Restored git commit " ++ c.take 8 ++ " in " ++ s.path }) ∧
      (s.type = .tar → s.backup = none →
        restoreSnapshot log sid =
          .error (.corruptRecord "Tar snapshot missing backup path")) ∧
      (∀ b, s.type = .tar → s.backup = some b → b ≠ "" →
        restoreSnapshot log sid =
          .ok { command := "tar -xzf \"" ++ b ++ "\" -C \"" ++ dirnamePosix s.path ++ "\"",
                summary := "Restored " ++ s.path ++ " from tar backup" }) ∧
      (s.type = .sftp → s.backup = none →
        restoreSnapshot log sid =
          .error (.corruptRecord "File snapshot missing backup path")) ∧
      (∀ b, s.type = .sftp → s.backup = some b → b ≠ "" →
        restoreSnapshot log sid =
          .ok { command := "cp \"" ++ b ++ "\" \"" ++ s.path ++ "\"",
                summary := "Restored file " ++ s.path }))) := by
  constructor
  · intro habs
    have hnone : (listSnapshots log none 1000).find? (fun t => t.id == sid) = none := by
      rw [List.find?_eq_none]
      intro t ht
      simpa using habs t (mem_log_of_mem_listSnapshots ht)
    simp [restoreSnapshot, hnone]
  · intro hfind
    refine ⟨?_, ?_, ?_, ?_, ?_, ?_⟩
    · intro htype hc
      simp [restoreSnapshot, hfind, htype, restoreGit, hc]
    · intro c htype hc hne
      simp [restoreSnapshot, hfind, htype, restoreGit, hc, hne, String.append_assoc,
        String.append_empty, toString]
    · intro htype hb
      simp [restoreSnapshot, hfind, htype, restoreTar, hb]
    · intro b htype hb hne
      simp [restoreSnapshot, hfind, htype, restoreTar, hb, hne, String.append_assoc,
        String.append_empty, toString]
    · intro htype hb
      simp [restoreSnapshot, hfind, htype, restoreFile, hb]
    · intro b htype hb hne
      simp [restoreSnapshot, hfind, htype, restoreFile, hb, hne, String.append_assoc,
        String.append_empty, toString]

/-- Witness for C2 at a concrete log: `exSnapOld` is found and restored as a
tar archive, and an unknown id yields `SnapshotNotFound`. -/
theorem snapshot_restore_dispatch_witness :
    restoreSnapshot exLog "snap_old" =
      .ok { command := "tar -xzf \"/logs/snapshots/10/app.tar.gz\" -C \"/data\"",
            summary := "Restored /data/app from tar backup" } ∧
    restoreSnapshot exLog "snap_absent" =
      .error (.snapshotNotFound "snap_absent") := by
  constructor
  · have h := (snapshot_restore_dispatch exLog "snap_old" exSnapOld).2
      (by decide) |>.2.2.2.1 "/logs/snapshots/10/app.tar.gz" (by decide) (by decide)
      (by decide)
    rw [h]
    rfl
  · exact (snapshot_restore_dispatch exLog "snap_absent" exSnapOld).1 (by decide)

/-! ## Job supervisor (`JobTracker`)

The in-memory job table (`Map<string, Job>`) is modelled as an insertion-
ordered association list.  Remote interactions are inputs: the stdout the
liveness probe (`ps -p <pid> -o pid= || echo "done"`), the exit-status idiom
(`wait <pid>; echo $?`) and the kill command
(`kill <pid> && echo "killed" || echo "failed"`) produce on the remote
host. -/

inductive JobStatus where
  | running
  | completed
  | failed
deriving DecidableEq, Repr

structure Job where
  id : String
  host : String
  command : String
  name : Option String := none
  status : JobStatus
  pid : Int
  startTime : Nat
  endTime : Option Nat := none
  exitCode : Option Int := none
  outputFile : String
deriving DecidableEq, Repr

/-- Modelled from JavaScript's `String.prototype.trim` restricted to the
ASCII whitespace that shell output contains (space, tab, newline, carriage
return): both ends stripped. -/
def jsWhitespace (c : Char) : Bool :=
  c = ' ' || c = '\t' || c = '\n' || c = '\r'

def jsTrim (s : String) : String :=
  String.mk (((s.data.dropWhile jsWhitespace).reverse.dropWhile jsWhitespace).reverse)

/-- The integer prefix of a character list, if any digit is present:
`parseInt`'s digit-consuming loop. -/
def leadingDigits : List Char → Option Nat
  | [] => none
  | c :: rest =>
    if c.isDigit then
      some (leadingDigitsAux (c.toNat - 48) rest)
    else none
where
  leadingDigitsAux (acc : Nat) : List Char → Nat
    | [] => acc
    | c :: rest =>
      if c.isDigit then leadingDigitsAux (acc * 10 + (c.toNat - 48)) rest
      else acc

/-- Modelled from JavaScript's `parseInt(s, 10)` on already-trimmed input:
an optional sign followed by as many decimal digits as possible; `none`
when no digit is found (`NaN`). -/
def jsParseInt (s : String) : Option Int :=
  match s.data with
  | '-' :: rest => (leadingDigits rest).map (fun v => -(v : Int))
  | '+' :: rest => (leadingDigits rest).map (fun v => (v : Int))
  | cs => (leadingDigits cs).map (fun v => (v : Int))

/-- `parseInt(x, 10) || 0`: `NaN` (no parse) collapses to `0`; a parsed `0`
(or `-0`) stays `0`. -/
def jsParseIntOr0 (s : String) : Int :=
  (jsParseInt s).getD 0

/-- `Map.get`: the value stored at a key. -/
def lookupJob : List (String × Job) → String → Option Job
  | [], _ => none
  | p :: rest, jid => if p.1 == jid then some p.2 else lookupJob rest jid

/-- `Map.set` on an existing key: replace the value in place, preserving
insertion order. -/
def setJob : List (String × Job) → String → Job → List (String × Job)
  | [], _, _ => []
  | p :: rest, jid, j =>
    if p.1 == jid then (p.1, j) :: setJob rest jid j
    else p :: setJob rest jid j

inductive JobError where
  | jobNotFound (id : String)
deriving DecidableEq, Repr

/-- `ps -p <pid> -o pid= 2>/dev/null || echo "done"` reported the process
gone: stdout trims to `"done"` or to the empty string. -/
def probeGone (probeOut : String) : Bool :=
  jsTrim probeOut == "done" || jsTrim probeOut == ""

/-- The finalization `getStatus` applies when the remote process is gone:
exit code recovered from `wait <pid>; echo $?` output (default 0), status
`completed` iff that code is 0, end time stamped. -/
def finalizeFromExit (j : Job) (now : Nat) (waitOut : String) : Job :=
  let exitCode := jsParseIntOr0 (jsTrim waitOut)
  { j with status := if exitCode = 0 then .completed else .failed,
           exitCode := some exitCode,
           endTime := some now }

/-- `JobTracker.getStatus(jobId)`: `probeOut`/`waitOut` are the stdout of the
two remote commands (the second is only issued when the first reports the
process gone). -/
def getStatus (jobs : List (String × Job)) (jid : String) (now : Nat)
    (probeOut waitOut : String) :
    Except JobError (Job × List (String × Job)) :=
  match lookupJob jobs jid with
  | none => .error (.jobNotFound jid)
  | some job =>
    if job.status = .running then
      if probeGone probeOut then
        let j := finalizeFromExit job now waitOut
        .ok (j, setJob jobs jid j)
      else .ok (job, jobs)
    else .ok (job, jobs)

/-- `JobTracker.kill(jobId)`: `killOut` is the stdout of
`kill <pid> 2>/dev/null && echo "killed" || echo "failed"`. -/
def killJob (jobs : List (String × Job)) (jid : String) (now : Nat)
    (killOut : String) :
    Except JobError (Bool × List (String × Job)) :=
  match lookupJob jobs jid with
  | none => .error (.jobNotFound jid)
  | some job =>
    if job.status ≠ .running then .ok (false, jobs)
    else if jsTrim killOut == "killed" then
      let j := { job with status := .failed, exitCode := some (-9),
                          endTime := some now }
      .ok (true, setJob jobs jid j)
    else .ok (false, jobs)

/-- One `list` refresh step: `getStatus` for its side effect on the table
(a thrown `JobNotFound` cannot occur for ids read out of the table). -/
def refreshJob (jobs : List (String × Job)) (jid : String) (now : Nat)
    (probeOf waitOf : String → String) : List (String × Job) :=
  match getStatus jobs jid now (probeOf jid) (waitOf jid) with
  | .ok (_, m) => m
  | .error _ => jobs

def matchesHost (hostName : Option String) (j : Job) : Bool :=
  match hostName with
  | some h => j.host == h
  | none => true

def startDescRel (a b : Job) : Prop :=
  b.startTime ≤ a.startTime

instance : DecidableRel startDescRel := fun a b =>
  inferInstanceAs (Decidable (b.startTime ≤ a.startTime))

instance : IsTotal Job startDescRel :=
  ⟨fun a b => Nat.le_total b.startTime a.startTime⟩

instance : IsTrans Job startDescRel :=
  ⟨fun _ _ _ h h' => Nat.le_trans h' h⟩

/-- The comparator `(a, b) => getTime(b.startTime) - getTime(a.startTime)`
under JavaScript's stable sort. -/
def sortByStartDesc (l : List Job) : List Job :=
  l.insertionSort startDescRel

/-- `JobTracker.list(hostName?)`: filter by host, refresh every running job
among the filtered ones (the loop runs over the already-filtered array),
return the refreshed records sorted by start time descending.  `probeOf` and
`waitOf` give each job id's remote probe output. -/
def refreshStep (now : Nat) (probeOf waitOf : String → String)
    (m : List (String × Job)) (j : Job) : List (String × Job) :=
  if j.status = .running then refreshJob m j.id now probeOf waitOf else m

def listJobs (jobs : List (String × Job)) (hostName : Option String)
    (now : Nat) (probeOf waitOf : String → String) :
    List Job × List (String × Job) :=
  let filtered := (jobs.map Prod.snd).filter (matchesHost hostName)
  let m := filtered.foldl (refreshStep now probeOf waitOf) jobs
  (sortByStartDesc (filtered.map (fun j => (lookupJob m j.id).getD j)), m)

/-- Well-formedness the tracker maintains for its table: keys are unique and
each record's id is its key (`this.jobs.set(id, job)` with `job.id = id`). -/
def JobsWF (jobs : List (String × Job)) : Prop :=
  (jobs.map Prod.fst).Nodup ∧ ∀ p ∈ jobs, p.2.id = p.1

/-! ### Table lemmas -/

theorem lookup_setJob_other {jobs : List (String × Job)} {jid k : String}
    (x : Job) (h : k ≠ jid) :
    lookupJob (setJob jobs jid x) k = lookupJob jobs k := by
  induction jobs with
  | nil => rfl
  | cons p rest ih =>
    by_cases hp : p.1 = jid
    · simp [setJob, lookupJob, hp, Ne.symm h, ih]
    · by_cases hpk : p.1 = k
      · simp [setJob, lookupJob, hp, hpk, h]
      · simp [setJob, lookupJob, hp, hpk, ih]

theorem lookup_setJob_self {jobs : List (String × Job)} {jid : String}
    {j : Job} (x : Job) (h : lookupJob jobs jid = some j) :
    lookupJob (setJob jobs jid x) jid = some x := by
  induction jobs with
  | nil => simp [lookupJob] at h
  | cons p rest ih =>
    by_cases hp : p.1 = jid
    · simp [setJob, lookupJob, hp]
    · have h' : lookupJob rest jid = some j := by
        simpa [lookupJob, hp] using h
      simp [setJob, lookupJob, hp, ih h']

theorem refreshJob_of_running_gone {jobs : List (String × Job)} {jid : String}
    {j : Job} (now : Nat) (probeOf waitOf : String → String)
    (h : lookupJob jobs jid = some j) (hr : j.status = .running)
    (hg : probeGone (probeOf jid) = true) :
    refreshJob jobs jid now probeOf waitOf =
      setJob jobs jid (finalizeFromExit j now (waitOf jid)) := by
  simp [refreshJob, getStatus, h, hr, hg]

theorem refreshJob_of_running_alive {jobs : List (String × Job)} {jid : String}
    {j : Job} (now : Nat) (probeOf waitOf : String → String)
    (h : lookupJob jobs jid = some j) (hr : j.status = .running)
    (hg : probeGone (probeOf jid) = false) :
    refreshJob jobs jid now probeOf waitOf = jobs := by
  simp [refreshJob, getStatus, h, hr, hg]

theorem refreshJob_of_terminal {jobs : List (String × Job)} {jid : String}
    {j : Job} (now : Nat) (probeOf waitOf : String → String)
    (h : lookupJob jobs jid = some j) (hr : j.status ≠ .running) :
    refreshJob jobs jid now probeOf waitOf = jobs := by
  simp [refreshJob, getStatus, h, hr]

theorem refreshJob_cases (jobs : List (String × Job)) (jid : String)
    (now : Nat) (probeOf waitOf : String → String) :
    refreshJob jobs jid now probeOf waitOf = jobs ∨
    ∃ x, refreshJob jobs jid now probeOf waitOf = setJob jobs jid x := by
  cases h : lookupJob jobs jid with
  | none => exact Or.inl (by simp [refreshJob, getStatus, h])
  | some j =>
    by_cases hr : j.status = .running
    · by_cases hg : probeGone (probeOf jid) = true
      · exact Or.inr ⟨_, refreshJob_of_running_gone now probeOf waitOf h hr hg⟩
      · exact Or.inl (refreshJob_of_running_alive now probeOf waitOf h hr
          (by simpa using hg))
    · exact Or.inl (refreshJob_of_terminal now probeOf waitOf h hr)

theorem lookup_refreshJob_other {jobs : List (String × Job)} {jid k : String}
    (now : Nat) (probeOf waitOf : String → String) (h : k ≠ jid) :
    lookupJob (refreshJob jobs jid now probeOf waitOf) k = lookupJob jobs k := by
  rcases refreshJob_cases jobs jid now probeOf waitOf with heq | ⟨x, heq⟩
  · rw [heq]
  · rw [heq, lookup_setJob_other x h]

theorem foldRefresh_preserve (now : Nat) (probeOf waitOf : String → String)
    (k : String) :
    ∀ (l : List Job) (m : List (String × Job)),
      (∀ x ∈ l, x.id = k → x.status ≠ .running) →
      lookupJob (l.foldl (refreshStep now probeOf waitOf) m) k = lookupJob m k := by
  intro l
  induction l with
  | nil => intro m _; rfl
  | cons x rest ih =>
    intro m hl
    simp only [List.foldl_cons]
    rw [ih _ (fun y hy => hl y (List.mem_cons_of_mem x hy))]
    by_cases hr : x.status = .running
    · have hx : x.id ≠ k := fun hid => hl x (List.mem_cons_self x rest) hid hr
      unfold refreshStep
      rw [if_pos hr]
      exact lookup_refreshJob_other now probeOf waitOf (Ne.symm hx)
    · unfold refreshStep
      rw [if_neg hr]

theorem foldRefresh_unique (now : Nat) (probeOf waitOf : String → String)
    {k : String} {j : Job} :
    ∀ (l : List Job) (m : List (String × Job)),
      l.filter (fun x => x.id == k) = [j] →
      lookupJob m k = some j → j.id = k → j.status = .running →
      lookupJob (l.foldl (refreshStep now probeOf waitOf) m) k =
        some (if probeGone (probeOf k) then finalizeFromExit j now (waitOf k)
              else j) := by
  intro l
  induction l with
  | nil => intro m hfil; simp at hfil
  | cons x rest ih =>
    intro m hfil hm hid hr
    simp only [List.foldl_cons]
    by_cases hx : x.id = k
    · have hpair : x = j ∧ rest.filter (fun y => y.id == k) = [] := by
        have h2 := hfil
        rw [List.filter_cons, if_pos (by simpa using hx)] at h2
        simpa [List.cons.injEq] using h2
      obtain ⟨rfl, hrest⟩ := hpair
      have hnone : ∀ y ∈ rest, y.id = k → y.status ≠ JobStatus.running := by
        intro y hy hyk
        exact absurd (show (y.id == k) = true by simpa using hyk)
          (by simpa using List.filter_eq_nil_iff.mp hrest y hy)
      rw [foldRefresh_preserve now probeOf waitOf k rest _ hnone]
      unfold refreshStep
      rw [if_pos hr, hid]
      by_cases hg : probeGone (probeOf k) = true
      · rw [refreshJob_of_running_gone now probeOf waitOf (hid ▸ hm) hr hg,
          if_pos hg]
        exact lookup_setJob_self _ hm
      · rw [refreshJob_of_running_alive now probeOf waitOf (hid ▸ hm) hr
          (by simpa using hg), if_neg hg]
        exact hm
    · have hfil' : rest.filter (fun y => y.id == k) = [j] := by
        have h2 := hfil
        rw [List.filter_cons, if_neg (by simpa using hx)] at h2
        exact h2
      have hm' : lookupJob (refreshStep now probeOf waitOf m x) k = some j := by
        by_cases hr' : x.status = .running
        · unfold refreshStep
          rw [if_pos hr', lookup_refreshJob_other now probeOf waitOf (Ne.symm hx)]
          exact hm
        · unfold refreshStep
          rw [if_neg hr']
          exact hm
      exact ih _ hfil' hm' hid hr

theorem lookup_of_entry_wf {jobs : List (String × Job)} (hwf : JobsWF jobs)
    {k : String} {j : Job} (h : (k, j) ∈ jobs) :
    lookupJob jobs k = some j := by
  induction jobs with
  | nil => simp at h
  | cons p rest ih =>
    obtain ⟨hnd, hid⟩ := hwf
    rw [List.map_cons, List.nodup_cons] at hnd
    rcases List.mem_cons.mp h with heq | hmem
    · rw [← heq]
      simp [lookupJob]
    · have hpk : p.1 ≠ k := by
        intro hk
        exact hnd.1 (hk ▸ (List.mem_map.mpr ⟨(k, j), hmem, rfl⟩))
      rw [lookupJob, if_neg (by simpa using hpk)]
      exact ih ⟨hnd.2, fun q hq => hid q (List.mem_cons_of_mem p hq)⟩ hmem

theorem jobsWF_tail {p : String × Job} {rest : List (String × Job)}
    (hwf : JobsWF (p :: rest)) : JobsWF rest := by
  obtain ⟨hnd, hid⟩ := hwf
  rw [List.map_cons, List.nodup_cons] at hnd
  exact ⟨hnd.2, fun q hq => hid q (List.mem_cons_of_mem p hq)⟩

theorem filtered_id_singleton {jobs : List (String × Job)} (hwf : JobsWF jobs)
    {k : String} {j : Job} (h : lookupJob jobs k = some j) (P : Job → Bool)
    (hPj : P j = true) :
    (((jobs.map Prod.snd).filter P).filter (fun x => x.id == k)) = [j] := by
  induction jobs with
  | nil => simp [lookupJob] at h
  | cons p rest ih =>
    obtain ⟨hnd, hid⟩ := hwf
    rw [List.map_cons, List.nodup_cons] at hnd
    by_cases hpk : p.1 = k
    · have hj : j = p.2 := by
        rw [lookupJob, if_pos (by simpa using hpk)] at h
        exact (Option.some.inj h).symm
      have hidp : p.2.id = k := hpk ▸ hid p (List.mem_cons_self p rest)
      have htail : ((rest.map Prod.snd).filter P).filter (fun x => x.id == k) = [] := by
        rw [List.filter_eq_nil_iff]
        intro x hx
        have hx2 := List.mem_of_mem_filter hx
        obtain ⟨q, hq, hqx⟩ := List.mem_map.mp hx2
        intro hxk
        apply hnd.1
        have hq1 : p.1 = q.1 := by
          rw [hpk, ← hid q (List.mem_cons_of_mem p hq), hqx]
          exact (show x.id = k by simpa using hxk).symm
        rw [hq1]
        exact List.mem_map.mpr ⟨q, hq, rfl⟩
      rw [hj, List.map_cons, List.filter_cons, if_pos (hj ▸ hPj),
        List.filter_cons, if_pos (by simpa using hidp), htail]
    · have h' : lookupJob rest k = some j := by
        rw [lookupJob, if_neg (by simpa using hpk)] at h
        exact h
      have hwf' : JobsWF rest :=
        ⟨hnd.2, fun q hq => hid q (List.mem_cons_of_mem p hq)⟩
      have hidp : p.2.id = p.1 := hid p (List.mem_cons_self p rest)
      by_cases hP : P p.2 = true
      · rw [List.map_cons, List.filter_cons, if_pos hP, List.filter_cons,
          if_neg (by simp [hidp, hpk])]
        exact ih hwf' h'
      · rw [List.map_cons, List.filter_cons, if_neg (by simpa using hP)]
        exact ih hwf' h'

theorem id_of_lookup {jobs : List (String × Job)}
    (hco : ∀ p ∈ jobs, p.2.id = p.1) {k : String} {j : Job}
    (h : lookupJob jobs k = some j) : j.id = k := by
  induction jobs with
  | nil => simp [lookupJob] at h
  | cons p rest ih =>
    by_cases hp : p.1 = k
    · rw [lookupJob, if_pos (by simpa using hp)] at h
      rw [← Option.some.inj h]
      exact (hco p (List.mem_cons_self p rest)).trans hp
    · rw [lookupJob, if_neg (by simpa using hp)] at h
      exact ih (fun q hq => hco q (List.mem_cons_of_mem p hq)) h

theorem values_id_unique {jobs : List (String × Job)} (hwf : JobsWF jobs)
    {k : String} {j : Job} (h : lookupJob jobs k = some j) :
    ∀ x ∈ jobs.map Prod.snd, x.id = k → x = j := by
  have hsing := filtered_id_singleton hwf h (fun _ => true) rfl
  rw [List.filter_true] at hsing
  intro x hx hxk
  have hxmem : x ∈ (jobs.map Prod.snd).filter (fun x => x.id == k) :=
    List.mem_filter.mpr ⟨hx, by simpa using hxk⟩
  rw [hsing] at hxmem
  simpa using hxmem

/-- What `list` leaves at key `k` of the job table: the entry is refreshed
(finalized iff the probe reports it gone) exactly when its record was running
and matched the host filter; otherwise it is untouched. -/
theorem listJobs_snd_lookup {jobs : List (String × Job)}
    (hostName : Option String) (now : Nat) (probeOf waitOf : String → String)
    (hwf : JobsWF jobs) {k : String} {j : Job}
    (h : lookupJob jobs k = some j) :
    lookupJob (listJobs jobs hostName now probeOf waitOf).2 k =
      some (if j.status = .running ∧ matchesHost hostName j = true then
        (if probeGone (probeOf k) = true then finalizeFromExit j now (waitOf k)
         else j)
      else j) := by
  have hid : j.id = k := id_of_lookup hwf.2 h
  show lookupJob
    (((jobs.map Prod.snd).filter (matchesHost hostName)).foldl
      (refreshStep now probeOf waitOf) jobs) k = _
  by_cases hc : j.status = .running ∧ matchesHost hostName j = true
  · rw [if_pos hc]
    exact foldRefresh_unique now probeOf waitOf _ jobs
      (filtered_id_singleton hwf h _ hc.2) h hid hc.1
  · rw [if_neg hc]
    have hpres : ∀ x ∈ (jobs.map Prod.snd).filter (matchesHost hostName),
        x.id = k → x.status ≠ JobStatus.running := by
      intro x hx hxk hxr
      have hxj : x = j :=
        values_id_unique hwf h x (List.mem_of_mem_filter hx) hxk
      subst hxj
      exact hc ⟨hxr, List.of_mem_filter hx⟩
    rw [foldRefresh_preserve now probeOf waitOf k _ jobs hpres]
    exact h

/-! ### Concrete job data used by counterexamples and witnesses -/

def exJobA : Job :=
  { id := "a", host := "h1", command := "sleep 100", status := .running,
    pid := 11, startTime := 5, outputFile := "/tmp/enrichedlab_job_a.out" }

def exJobB : Job :=
  { id := "b", host := "h2", command := "sleep 200", status := .running,
    pid := 12, startTime := 3, outputFile := "/tmp/enrichedlab_job_b.out" }

def exJobs : List (String × Job) := [("a", exJobA), ("b", exJobB)]

def exProbeOf : String → String := fun _ => "done\n"

def exWaitOf : String → String := fun _ => "0\n"

/-- C8 counterexample.  With the host filter `h1`, `list` does NOT refresh the
running job `b` on host `h2`: the probe transcript reports its process gone
(a refresh would have finalized it), yet after the call its record is
bit-for-bit unchanged — still `running`, no exit code, no end time.  The loop
refreshes only the already-filtered jobs, so "refreshes the status of every
currently-running job" fails when a host filter is given. -/
theorem job_list_refresh_scope_cex :
    exJobB.status = .running ∧
    probeGone (exProbeOf "b") = true ∧
    finalizeFromExit exJobB 100 (exWaitOf "b") ≠ exJobB ∧
    lookupJob (listJobs exJobs (some "h1") 100 exProbeOf exWaitOf).2 "b" =
      some exJobB := by
  decide

/-- C8 (amended): `list(hostName?)` refreshes the status of every
currently-running job among those matching the host filter (finalizing it
exactly when its remote probe reports the process gone), leaves every other
tracked job untouched, and returns the filtered records sorted by start time
descending. -/
theorem job_list_refresh_scope (jobs : List (String × Job))
    (hostName : Option String) (now : Nat) (probeOf waitOf : String → String)
    (hwf : JobsWF jobs) :
    List.Sorted startDescRel (listJobs jobs hostName now probeOf waitOf).1 ∧
    (∀ hn, hostName = some hn →
      ∀ j ∈ (listJobs jobs hostName now probeOf waitOf).1, j.host = hn) ∧
    (∀ k j, lookupJob jobs k = some j → j.status = .running →
      matchesHost hostName j = true →
      lookupJob (listJobs jobs hostName now probeOf waitOf).2 k =
        some (if probeGone (probeOf k) = true
          then finalizeFromExit j now (waitOf k) else j)) ∧
    (∀ k j, lookupJob jobs k = some j →
      j.status ≠ .running ∨ matchesHost hostName j = false →
      lookupJob (listJobs jobs hostName now probeOf waitOf).2 k = some j) := by
  refine ⟨?_, ?_, ?_, ?_⟩
  · exact List.sorted_insertionSort startDescRel _
  · intro hn hhn j' hj'
    subst hhn
    have hj2 : j' ∈ ((jobs.map Prod.snd).filter (matchesHost (some hn))).map
        (fun j => (lookupJob
          (((jobs.map Prod.snd).filter (matchesHost (some hn))).foldl
            (refreshStep now probeOf waitOf) jobs) j.id).getD j) := by
      simpa [listJobs, sortByStartDesc, List.mem_insertionSort] using hj'
    obtain ⟨x, hx, hxj⟩ := List.mem_map.mp hj2
    have hxhost : x.host = hn := by
      have := List.of_mem_filter hx
      simpa [matchesHost] using this
    obtain ⟨q, hq, hqx⟩ := List.mem_map.mp (List.mem_of_mem_filter hx)
    have hqk : q.1 = x.id := by rw [← hqx]; exact (hwf.2 q hq).symm
    have hlook : lookupJob jobs x.id = some x := by
      have : (x.id, x) ∈ jobs := by
        have : q = (x.id, x) := by
          rw [Prod.ext_iff]
          exact ⟨hqk, hqx⟩
        exact this ▸ hq
      exact lookup_of_entry_wf hwf this
    have hchar := listJobs_snd_lookup (some hn) now probeOf waitOf
      hwf hlook
    rw [← hxj]
    show ((lookupJob (listJobs jobs (some hn) now probeOf waitOf).2 x.id).getD x).host = hn
    rw [hchar]
    by_cases hc : x.status = JobStatus.running ∧ matchesHost (some hn) x = true
    · rw [if_pos hc]
      by_cases hg : probeGone (probeOf x.id) = true
      · rw [if_pos hg]
        exact hxhost
      · rw [if_neg hg]
        exact hxhost
    · rw [if_neg hc]
      exact hxhost
  · intro k j h hr hm
    have hchar := listJobs_snd_lookup hostName now probeOf waitOf
      hwf h
    rw [if_pos ⟨hr, hm⟩] at hchar
    exact hchar
  · intro k j h hcase
    have hchar := listJobs_snd_lookup hostName now probeOf waitOf
      hwf h
    rw [if_neg (by
      intro hc
      rcases hcase with hcs | hcm
      · exact hcs hc.1
      · rw [hc.2] at hcm
        simp at hcm)] at hchar
    exact hchar

/-- Witness for C8's amended theorem on a concrete two-host table. -/
theorem job_list_refresh_scope_witness :
    List.Sorted startDescRel (listJobs exJobs (some "h1") 100 exProbeOf exWaitOf).1 ∧
    (∀ hn, (some "h1" : Option String) = some hn →
      ∀ j ∈ (listJobs exJobs (some "h1") 100 exProbeOf exWaitOf).1, j.host = hn) ∧
    (∀ k j, lookupJob exJobs k = some j → j.status = .running →
      matchesHost (some "h1") j = true →
      lookupJob (listJobs exJobs (some "h1") 100 exProbeOf exWaitOf).2 k =
        some (if probeGone (exProbeOf k) = true
          then finalizeFromExit j 100 (exWaitOf k) else j)) ∧
    (∀ k j, lookupJob exJobs k = some j →
      j.status ≠ .running ∨ matchesHost (some "h1") j = false →
      lookupJob (listJobs exJobs (some "h1") 100 exProbeOf exWaitOf).2 k = some j) :=
  job_list_refresh_scope exJobs (some "h1") 100 exProbeOf exWaitOf
    ⟨by decide, by decide⟩

/-- The record `kill` writes when the remote reports the signal succeeded. -/
def killedJob (j : Job) (now : Nat) : Job :=
  { j with status := .failed, exitCode := some (-9), endTime := some now }

/-- C5: `kill` fails with `JobNotFound` for an unknown id; returns `false`
without any change to the table when the job is not running or when the
remote reports the signal failed; and only when the remote reports success
does it return `true`, finalizing exactly that record to status `failed`,
exit code `-9`, end time stamped. -/
theorem job_kill_semantics (jobs : List (String × Job)) (jid : String)
    (now : Nat) (killOut : String) :
    (lookupJob jobs jid = none →
      killJob jobs jid now killOut = .error (.jobNotFound jid)) ∧
    (∀ j, lookupJob jobs jid = some j → j.status ≠ .running →
      killJob jobs jid now killOut = .ok (false, jobs)) ∧
    (∀ j, lookupJob jobs jid = some j → j.status = .running →
      jsTrim killOut = "killed" →
      killJob jobs jid now killOut =
        .ok (true, setJob jobs jid (killedJob j now)) ∧
      lookupJob (setJob jobs jid (killedJob j now)) jid =
        some (killedJob j now) ∧
      (killedJob j now).status = .failed ∧
      (killedJob j now).exitCode = some (-9) ∧
      (killedJob j now).endTime = some now ∧
      (∀ k, k ≠ jid →
        lookupJob (setJob jobs jid (killedJob j now)) k = lookupJob jobs k)) ∧
    (∀ j, lookupJob jobs jid = some j → j.status = .running →
      jsTrim killOut ≠ "killed" →
      killJob jobs jid now killOut = .ok (false, jobs)) := by
  refine ⟨?_, ?_, ?_, ?_⟩
  · intro h
    simp [killJob, h]
  · intro j h hr
    simp [killJob, h, hr]
  · intro j h hr hk
    refine ⟨by simp [killJob, h, hr, hk, killedJob], ?_, rfl, rfl, rfl, ?_⟩
    · exact lookup_setJob_self _ h
    · intro k hkj
      exact lookup_setJob_other _ hkj
  · intro j h hr hk
    simp [killJob, h, hr, hk]

/-- Witness for C5 on the concrete table: killing the running job `a` with a
remote success reply finalizes it; an unknown id errors. -/
theorem job_kill_semantics_witness :
    killJob exJobs "a" 100 "killed\n" =
      .ok (true, setJob exJobs "a" (killedJob exJobA 100)) ∧
    killJob exJobs "zz" 100 "killed\n" =
      .error (.jobNotFound "zz") := by
  constructor
  · exact ((job_kill_semantics exJobs "a" 100 "killed\n").2.2.1 exJobA
      (by decide) (by decide) (by decide)).1
  · exact (job_kill_semantics exJobs "zz" 100 "killed\n").1 (by decide)

/-- C4: per-job state machine.  `getStatus` on a running job whose remote
process is gone finalizes it — status `completed` iff the exit code recovered
by `wait <pid>; echo $?` (defaulting to 0 when nothing parseable comes back)
is 0, `failed` otherwise, with exit code and end time set; and no operation
(`getStatus`, `kill`, `list`) changes a record that is already `completed` or
`failed`. -/
theorem job_state_machine (jobs : List (String × Job)) (jid : String)
    (now : Nat) (probeOut waitOut killOut : String) (hostName : Option String)
    (probeOf waitOf : String → String) :
    (∀ j, lookupJob jobs jid = some j → j.status = .running →
      probeGone probeOut = true →
      getStatus jobs jid now probeOut waitOut =
        .ok (finalizeFromExit j now waitOut,
             setJob jobs jid (finalizeFromExit j now waitOut)) ∧
      (finalizeFromExit j now waitOut).status =
        (if jsParseIntOr0 (jsTrim waitOut) = 0 then .completed else .failed) ∧
      (finalizeFromExit j now waitOut).exitCode =
        some (jsParseIntOr0 (jsTrim waitOut)) ∧
      (finalizeFromExit j now waitOut).endTime = some now) ∧
    (∀ s, jsParseInt s = none → jsParseIntOr0 s = 0) ∧
    (∀ j, lookupJob jobs jid = some j → j.status ≠ .running →
      getStatus jobs jid now probeOut waitOut = .ok (j, jobs)) ∧
    (∀ j, lookupJob jobs jid = some j → j.status ≠ .running →
      killJob jobs jid now killOut = .ok (false, jobs)) ∧
    (∀ j, JobsWF jobs → lookupJob jobs jid = some j → j.status ≠ .running →
      lookupJob (listJobs jobs hostName now probeOf waitOf).2 jid = some j) := by
  refine ⟨?_, ?_, ?_, ?_, ?_⟩
  · intro j h hr hg
    exact ⟨by simp [getStatus, h, hr, hg], rfl, rfl, rfl⟩
  · intro s h
    simp [jsParseIntOr0, h]
  · intro j h hr
    simp [getStatus, h, hr]
  · intro j h hr
    simp [killJob, h, hr]
  · intro j hwf h hr
    have hchar := listJobs_snd_lookup hostName now probeOf waitOf
      hwf h
    rw [if_neg (fun hc => hr hc.1)] at hchar
    exact hchar

/-! ## Command executor and connection pool (`connection-manager.ts`)

`exec`/`execStreaming` settle a promise from the ssh2 channel's events.  The
remote side of one invocation is modelled by `ExecOutcome`: either the
channel could not be opened (`client.exec` yields an error), or a sequence of
stdout/stderr chunks arrives followed by a terminal event — `close` with the
remote exit status, or a stream error.  Events after the promise settles are
irrelevant, which the outcome type makes structural. -/

inductive StreamChunk where
  | out (s : String)
  | err (s : String)
deriving DecidableEq, Repr

inductive ExecOutcome where
  | startFailure (msg : String)
  | streamFail (chunks : List StreamChunk) (msg : String)
  | finished (chunks : List StreamChunk) (code : Int)
deriving DecidableEq, Repr

structure ExecResult where
  stdout : String
  stderr : String
  exitCode : Int
  duration : Nat
deriving DecidableEq, Repr

inductive ExecError where
  | execFailed (msg : String)
  | streamError (msg : String)
deriving DecidableEq, Repr

def collectStdout (chunks : List StreamChunk) : String :=
  chunks.foldl (fun acc c => match c with
    | .out s => acc ++ s
    | .err _ => acc) ""

def collectStderr (chunks : List StreamChunk) : String :=
  chunks.foldl (fun acc c => match c with
    | .out _ => acc
    | .err s => acc ++ s) ""

/-- `ConnectionManager.exec`: `duration` is the wall-clock time measured
around the invocation. -/
def exec (outcome : ExecOutcome) (duration : Nat) :
    Except ExecError ExecResult :=
  match outcome with
  | .startFailure m => .error (.execFailed ("Exec failed: " ++ m))
  | .streamFail _ m => .error (.streamError ("Stream error: " ++ m))
  | .finished chunks code =>
    .ok { stdout := collectStdout chunks, stderr := collectStderr chunks,
          exitCode := code, duration := duration }

/-- The `onData(chunk, isStderr)` callbacks `execStreaming` issues, in
arrival order: every chunk that arrived before the terminal event, none when
the command could not start. -/
def execStreamingCalls (outcome : ExecOutcome) : List (String × Bool) :=
  match outcome with
  | .startFailure _ => []
  | .streamFail chunks _ => chunks.map (fun c => match c with
      | .out s => (s, false)
      | .err s => (s, true))
  | .finished chunks _ => chunks.map (fun c => match c with
      | .out s => (s, false)
      | .err s => (s, true))

/-- `ConnectionManager.execStreaming`: same settlement logic as `exec`, plus
the stream of `onData` callbacks. -/
def execStreaming (outcome : ExecOutcome) (duration : Nat) :
    (Except ExecError ExecResult) × List (String × Bool) :=
  (exec outcome duration, execStreamingCalls outcome)

/-- C7: both `exec` and `execStreaming` fail with `ExecFailed` exactly when
the remote side cannot start the command and with `StreamError` exactly when
the channel fails mid-transfer; a close with a non-zero remote exit status is
not an error — the call succeeds, reporting that status in `exitCode`
together with the captured stdout and stderr. -/
theorem exec_error_taxonomy (outcome : ExecOutcome) (duration : Nat) :
    ((∃ m, outcome = .startFailure m) ↔
      ∃ m, exec outcome duration = .error (.execFailed m)) ∧
    ((∃ chunks m, outcome = .streamFail chunks m) ↔
      ∃ m, exec outcome duration = .error (.streamError m)) ∧
    (∀ chunks code, outcome = .finished chunks code →
      exec outcome duration =
        .ok { stdout := collectStdout chunks, stderr := collectStderr chunks,
              exitCode := code, duration := duration } ∧
      execStreamingCalls outcome = chunks.map (fun c => match c with
        | .out s => (s, false)
        | .err s => (s, true))) ∧
    (execStreaming outcome duration).1 = exec outcome duration ∧
    (execStreaming outcome duration).2 = execStreamingCalls outcome := by
  refine ⟨?_, ?_, ?_, rfl, rfl⟩
  · constructor
    · rintro ⟨m, rfl⟩
      exact ⟨"Exec failed: " ++ m, rfl⟩
    · rintro ⟨m, hm⟩
      cases outcome with
      | startFailure m' => exact ⟨m', rfl⟩
      | streamFail chunks m' => simp [exec] at hm
      | finished chunks code => simp [exec] at hm
  · constructor
    · rintro ⟨chunks, m, rfl⟩
      exact ⟨"Stream error: " ++ m, rfl⟩
    · rintro ⟨m, hm⟩
      cases outcome with
      | startFailure m' => simp [exec] at hm
      | streamFail chunks m' => exact ⟨chunks, m', rfl⟩
      | finished chunks code => simp [exec] at hm
  · rintro chunks code rfl
    exact ⟨rfl, rfl⟩

/-! ## Connection pool idle eviction

The pool is the `Map<string, ConnectionEntry>`; the underlying ssh2 client
object carries no state the eviction logic reads, so an entry is its
bookkeeping fields. -/

structure ConnectionEntry where
  lastUsed : Nat
  connecting : Bool
  ready : Bool
deriving DecidableEq, Repr

/-- `this.idleTimeout = 300000` (5 minutes), fixed at construction. -/
def idleTimeout : Nat := 300000

def lookupConn : List (String × ConnectionEntry) → String → Option ConnectionEntry
  | [], _ => none
  | p :: rest, name => if p.1 == name then some p.2 else lookupConn rest name

/-- One sweep of the `startIdleCheck` interval at clock reading `now`:
`close(name)` (which deletes the entry) for every entry with
`now - entry.lastUsed > idleTimeout`. -/
def evictIdle (now : Nat) (pool : List (String × ConnectionEntry)) :
    List (String × ConnectionEntry) :=
  pool.filter (fun p => !(idleTimeout < now - p.2.lastUsed))

theorem lookupConn_eq_none_of_not_mem {pool : List (String × ConnectionEntry)}
    {name : String} (h : ∀ p ∈ pool, p.1 ≠ name) :
    lookupConn pool name = none := by
  induction pool with
  | nil => rfl
  | cons p rest ih =>
    rw [lookupConn, if_neg (by simpa using h p (List.mem_cons_self p rest))]
    exact ih (fun q hq => h q (List.mem_cons_of_mem p hq))

/-- C9: after a sweep at clock `now`, a pooled session unused for longer than
the idle window is gone from the pool, and one used within the window is
still present, unchanged. -/
theorem pool_idle_eviction (pool : List (String × ConnectionEntry))
    (now : Nat) (name : String) (e : ConnectionEntry)
    (hnd : (pool.map Prod.fst).Nodup)
    (hmem : lookupConn pool name = some e) :
    (idleTimeout < now - e.lastUsed →
      lookupConn (evictIdle now pool) name = none) ∧
    (now - e.lastUsed ≤ idleTimeout →
      lookupConn (evictIdle now pool) name = some e) := by
  induction pool with
  | nil => simp [lookupConn] at hmem
  | cons p rest ih =>
    rw [List.map_cons, List.nodup_cons] at hnd
    by_cases hp : p.1 = name
    · have he : p.2 = e := by
        rw [lookupConn, if_pos (by simpa using hp)] at hmem
        exact Option.some.inj hmem
      constructor
      · intro hold
        have hrest : ∀ q ∈ rest.filter
            (fun q => !(idleTimeout < now - q.2.lastUsed)), q.1 ≠ name := by
          intro q hq hqn
          exact hnd.1 (hp ▸ hqn ▸
            List.mem_map.mpr ⟨q, List.mem_of_mem_filter hq, rfl⟩)
        rw [evictIdle, List.filter_cons, if_neg (by rw [he]; simp [hold])]
        exact lookupConn_eq_none_of_not_mem hrest
      · intro hfresh
        rw [evictIdle, List.filter_cons,
          if_pos (by rw [he]; simp [Nat.not_lt.mpr hfresh])]
        rw [lookupConn, if_pos (by simpa using hp), he]
    · have hmem' : lookupConn rest name = some e := by
        rw [lookupConn, if_neg (by simpa using hp)] at hmem
        exact hmem
      have ih' := ih hnd.2 hmem'
      by_cases hkeep : idleTimeout < now - p.2.lastUsed
      · rw [evictIdle, List.filter_cons, if_neg (by simp [hkeep])]
        exact ih'
      · rw [evictIdle, List.filter_cons, if_pos (by simp [hkeep])]
        constructor
        · intro hold
          rw [lookupConn, if_neg (by simpa using hp)]
          exact ih'.1 hold
        · intro hfresh
          rw [lookupConn, if_neg (by simpa using hp)]
          exact ih'.2 hfresh

/-- Witness for C9: a stale session is evicted, a fresh one survives. -/
theorem pool_idle_eviction_witness :
    (idleTimeout < 600000 - 100 →
      lookupConn (evictIdle 600000
        [("alpha", ⟨100, false, true⟩), ("beta", ⟨500000, false, true⟩)])
        "alpha" = none) ∧
    (600000 - 100 ≤ idleTimeout →
      lookupConn (evictIdle 600000
        [("alpha", ⟨100, false, true⟩), ("beta", ⟨500000, false, true⟩)])
        "alpha" = some ⟨100, false, true⟩) := by
  exact pool_idle_eviction
    [("alpha", ⟨100, false, true⟩), ("beta", ⟨500000, false, true⟩)]
    600000 "alpha" ⟨100, false, true⟩ (by decide) (by decide)

/-! ## Hang watchdog (`HangDetector`)

`onActivity` and `checkHang` are embedded directly; the timer is the event
schedule.  `start` records the clock, clears the alert latch and schedules the
first check one timeout `T` after itself; every `checkHang` reschedules the
next check `T` later, and `onActivity` does not touch the timer, so with
instantaneous callbacks the checks of a monitoring session started at time 0
run exactly at the positive multiples of `T`.  A run processes the
time-ordered stream of activity signals and timer checks; an activity
arriving at the same instant as a check is processed first (the claims do not
hinge on ties). -/

structure HDState where
  lastActivity : Nat
  alertSent : Bool
deriving DecidableEq, Repr

inductive HDEvent where
  | activity (t : Nat)
  | check (t : Nat)
deriving DecidableEq, Repr

def isCheck : HDEvent → Bool
  | .check _ => true
  | .activity _ => false

/-- `HangDetector.onActivity`: reset the clock and the alert latch. -/
def onActivity (t : Nat) (_s : HDState) : HDState :=
  { lastActivity := t, alertSent := false }

/-- `HangDetector.checkHang` at clock `t`: alert (with the elapsed idle
duration) iff the timeout elapsed with no intervening activity and no alert
is latched; then latch. -/
def checkHang (T t : Nat) (s : HDState) : HDState × Option Nat :=
  let elapsed := t - s.lastActivity
  if T ≤ elapsed ∧ s.alertSent = false then
    ({ s with alertSent := true }, some elapsed)
  else (s, none)

/-- The alert text: `Math.round(elapsed / 1000)` seconds. -/
def alertMessage (elapsed : Nat) : String :=
  s!"No output for {(elapsed + 500) / 1000}s - command may be hung or waiting for input"

def hdStep (T : Nat) (s : HDState) : HDEvent → HDState × Option Nat
  | .activity t => (onActivity t s, none)
  | .check t => checkHang T t s

def hdRun (T : Nat) (s : HDState) : List HDEvent → HDState × List Nat
  | [] => (s, [])
  | e :: rest =>
    let p := hdStep T s e
    let q := hdRun T p.1 rest
    (q.1, p.2.toList ++ q.2)

/-- The idealized event stream of a monitoring session started at time 0 and
observed through `horizon`: at each instant, any activity signal first, then
the timer check if the instant is a positive multiple of `T`. -/
def hdEvents (T : Nat) (acts : List Nat) (horizon : Nat) : List HDEvent :=
  ((List.range horizon).map (fun u =>
    (if (u+1) ∈ acts then [HDEvent.activity (u+1)] else []) ++
    (if (u+1) % T = 0 then [HDEvent.check (u+1)] else []))).flatten

/-- All alerts (as elapsed idle durations) of such a session. -/
def hdSim (T : Nat) (acts : List Nat) (horizon : Nat) : List Nat :=
  (hdRun T ⟨0, false⟩ (hdEvents T acts horizon)).2

theorem hdRun_sent_checks (T : Nat) :
    ∀ (evts : List HDEvent) (s : HDState), s.alertSent = true →
      (∀ e ∈ evts, isCheck e = true) → hdRun T s evts = (s, []) := by
  intro evts
  induction evts with
  | nil => intro s _ _; rfl
  | cons e rest ih =>
    intro s h hev
    cases e with
    | activity t => simpa [isCheck] using hev (.activity t) (List.mem_cons_self _ _)
    | check t =>
      have hc : checkHang T t s = (s, none) := by
        simp [checkHang, h]
      simp [hdRun, hdStep, hc,
        ih s h (fun e he => hev e (List.mem_cons_of_mem _ he))]

theorem hdRun_checks_le_one (T : Nat) :
    ∀ (evts : List HDEvent) (s : HDState), (∀ e ∈ evts, isCheck e = true) →
      ((hdRun T s evts).2).length ≤ 1 := by
  intro evts
  induction evts with
  | nil => intro s _; simp [hdRun]
  | cons e rest ih =>
    intro s hev
    cases e with
    | activity t => simpa [isCheck] using hev (.activity t) (List.mem_cons_self _ _)
    | check t =>
      have hevr := fun e he => hev e (List.mem_cons_of_mem _ he)
      by_cases hf : T ≤ t - s.lastActivity ∧ s.alertSent = false
      · have hrest := hdRun_sent_checks T rest { s with alertSent := true }
          rfl hevr
        simp [hdRun, hdStep, checkHang, hf, hrest]
      · have := ih s hevr
        simpa [hdRun, hdStep, checkHang, hf] using
          ih { s with lastActivity := s.lastActivity } hevr

theorem hdRun_checks_fires (T : Nat) (hT : 0 < T) :
    ∀ (evts : List HDEvent) (a : Nat), (∀ e ∈ evts, isCheck e = true) →
      (∃ c, HDEvent.check c ∈ evts ∧ a + T ≤ c) →
      ∃ c, HDEvent.check c ∈ evts ∧ T ≤ c - a ∧
        (hdRun T ⟨a, false⟩ evts).2 = [c - a] := by
  intro evts
  induction evts with
  | nil =>
    rintro a _ ⟨c, hc, _⟩
    simp at hc
  | cons e rest ih =>
    rintro a hev ⟨c, hc, hca⟩
    cases e with
    | activity t => simpa [isCheck] using hev (.activity t) (List.mem_cons_self _ _)
    | check t =>
      have hevr := fun e he => hev e (List.mem_cons_of_mem _ he)
      by_cases hf : T ≤ t - a
      · refine ⟨t, List.mem_cons_self _ _, hf, ?_⟩
        have hrest := hdRun_sent_checks T rest ⟨a, true⟩ rfl hevr
        simp [hdRun, hdStep, checkHang, hf, hrest]
      · have hct : HDEvent.check c ∈ rest := by
          rcases List.mem_cons.mp hc with heq | hmem
          · exfalso
            apply hf
            have : c = t := by
              injection heq
            omega
          · exact hmem
        obtain ⟨c', hc'mem, hc'le, hrun⟩ := ih a hevr ⟨c, hct, hca⟩
        refine ⟨c', List.mem_cons_of_mem _ hc'mem, hc'le, ?_⟩
        simpa [hdRun, hdStep, checkHang, hf] using hrun

theorem schedule_check_exists (T a : Nat) (hT : 0 < T) :
    ∃ k, a + T ≤ (k + 1) * T ∧ (k + 1) * T ≤ a + 2 * T := by
  refine ⟨a / T + 1, ?_, ?_⟩
  · have hdm : T * (a / T) + a % T = a := Nat.div_add_mod a T
    have hr : a % T < T := Nat.mod_lt a hT
    have hexp : (a / T + 1 + 1) * T = T * (a / T) + 2 * T := by ring
    omega
  · have hdm : T * (a / T) + a % T = a := Nat.div_add_mod a T
    have hexp : (a / T + 1 + 1) * T = T * (a / T) + 2 * T := by ring
    omega

theorem check_mem_hdEvents {T t horizon : Nat} (acts : List Nat)
    (h1 : 1 ≤ t) (h2 : t ≤ horizon) (hmod : t % T = 0) :
    HDEvent.check t ∈ hdEvents T acts horizon := by
  unfold hdEvents
  apply List.mem_flatten.mpr
  refine ⟨(if (t - 1 + 1) ∈ acts then [HDEvent.activity (t - 1 + 1)] else []) ++
    (if (t - 1 + 1) % T = 0 then [HDEvent.check (t - 1 + 1)] else []), ?_, ?_⟩
  · exact List.mem_map.mpr ⟨t - 1, List.mem_range.mpr (by omega), rfl⟩
  · have ht1 : t - 1 + 1 = t := by omega
    rw [ht1, if_pos hmod]
    exact List.mem_append_right _ (List.mem_singleton.mpr rfl)

/-- C6 counterexample.  `T = 10`, activity at 5 and 16, observed through
`t = 19`: the detector's event stream is exactly
`[activity 5, check 10, activity 16]` — the one scheduled check inside the
silence `(5, 16)` runs at 10, sees only 5ms of idleness, and does not alert.
The silence lasts `16 - 5 = 11 ≥ T`, yet no alert fires before the next
activity signal (indeed the whole session alerts nothing), contradicting
"exactly one alert fires before the next activity signal". -/
theorem hang_alert_timing_cex :
    (10 : Nat) ≤ 16 - 5 ∧
    hdEvents 10 [5, 16] 19 =
      [HDEvent.activity 5, HDEvent.check 10, HDEvent.activity 16] ∧
    hdSim 10 [5, 16] 19 = [] := by
  decide

/-- C6 (amended): over any stretch of timer checks with no intervening
activity signal, (i) at most one alert fires from any detector state; (ii)
from the state an activity signal at time `a` leaves (clock `a`, latch
clear), exactly one alert fires — carrying the elapsed idle duration — as
soon as the stretch contains a check at or after `a + T`; (iii) the periodic
check schedule always provides such a check by `a + 2T`, so a silence of
length `2T` is guaranteed to alert exactly once, but a silence of length
`≥ T` alone is not; and (iv) an activity signal resets the clock and clears
the alert latch, re-arming the detector for exactly one further alert. -/
theorem hang_watchdog_amended (T a horizon : Nat) (acts : List Nat)
    (s : HDState) (evts : List HDEvent) (hT : 0 < T) :
    ((∀ e ∈ evts, isCheck e = true) → ((hdRun T s evts).2).length ≤ 1) ∧
    ((∀ e ∈ evts, isCheck e = true) →
      (∃ c, HDEvent.check c ∈ evts ∧ a + T ≤ c) →
      ∃ c, HDEvent.check c ∈ evts ∧ T ≤ c - a ∧
        (hdRun T ⟨a, false⟩ evts).2 = [c - a]) ∧
    (a + 2 * T ≤ horizon →
      ∃ k, a + T ≤ (k + 1) * T ∧ (k + 1) * T ≤ a + 2 * T ∧
        HDEvent.check ((k + 1) * T) ∈ hdEvents T acts horizon) ∧
    (∀ t, hdStep T s (.activity t) =
      ({ lastActivity := t, alertSent := false }, none)) := by
  refine ⟨fun hev => hdRun_checks_le_one T evts s hev,
    fun hev hex => hdRun_checks_fires T hT evts a hev hex, ?_, fun t => rfl⟩
  intro hhor
  obtain ⟨k, hk1, hk2⟩ := schedule_check_exists T a hT
  refine ⟨k, hk1, hk2, check_mem_hdEvents acts ?_ ?_ ?_⟩
  · have : 1 ≤ T := hT
    have : 1 * T ≤ (k + 1) * T := Nat.mul_le_mul_right T (by omega)
    omega
  · omega
  · exact Nat.mul_mod_left (k + 1) T

/-- Witness for C6's amended theorem: `T = 10`, last activity at 5, one check
at 20 inside the silence — exactly one alert, carrying 15ms of idleness. -/
theorem hang_watchdog_amended_witness :
    ((∀ e ∈ [HDEvent.check 20], isCheck e = true) →
      ((hdRun 10 ⟨0, false⟩ [HDEvent.check 20]).2).length ≤ 1) ∧
    ((∀ e ∈ [HDEvent.check 20], isCheck e = true) →
      (∃ c, HDEvent.check c ∈ [HDEvent.check 20] ∧ 5 + 10 ≤ c) →
      ∃ c, HDEvent.check c ∈ [HDEvent.check 20] ∧ 10 ≤ c - 5 ∧
        (hdRun 10 ⟨5, false⟩ [HDEvent.check 20]).2 = [c - 5]) ∧
    (5 + 2 * 10 ≤ 40 →
      ∃ k, 5 + 10 ≤ (k + 1) * 10 ∧ (k + 1) * 10 ≤ 5 + 2 * 10 ∧
        HDEvent.check ((k + 1) * 10) ∈ hdEvents 10 [] 40) ∧
    (∀ t, hdStep 10 (⟨0, false⟩ : HDState) (.activity t) =
      ({ lastActivity := t, alertSent := false }, none)) :=
  hang_watchdog_amended 10 5 40 [] ⟨0, false⟩ [HDEvent.check 20] (by decide)

/-! ## Retention characterization (claim C1)

`newerCount snaps s` is the spec-level notion "number of records of `s`'s
host, among the loaded ones, strictly more recent than `s`": with distinct
per-host timestamps, `s` is among the `k` most recent records of its host iff
`newerCount snaps s < k`. -/

def newerCount (snaps : List SnapshotMetadata) (s : SnapshotMetadata) : Nat :=
  (snaps.filter (fun t => t.host == s.host && s.tsMs < t.tsMs)).length

/-- Per-host timestamps are pairwise distinct (true of real logs, whose
records are stamped at creation). -/
def HostTsDistinct (snaps : List SnapshotMetadata) : Prop :=
  snaps.Pairwise (fun a b => a.host = b.host → a.tsMs ≠ b.tsMs)

theorem hostIndex_eq_newerCount_split (u v : List SnapshotMetadata)
    (s : SnapshotMetadata)
    (hsort : List.Pairwise tsDescRel (u ++ s :: v))
    (hdist : HostTsDistinct (u ++ s :: v)) :
    (u.filter (fun t => t.host == s.host)).length =
      newerCount (u ++ s :: v) s := by
  obtain ⟨hsu, hssv, hscross⟩ := List.pairwise_append.mp hsort
  obtain ⟨hdu, hdsv, hdcross⟩ := List.pairwise_append.mp hdist
  unfold newerCount
  rw [List.filter_append]
  have hA : u.filter (fun t => t.host == s.host && s.tsMs < t.tsMs) =
      u.filter (fun t => t.host == s.host) := by
    apply List.filter_congr
    intro t ht
    by_cases hh : t.host = s.host
    · have hle : s.tsMs ≤ t.tsMs :=
        hscross t ht s (List.mem_cons_self s v)
      have hne : t.tsMs ≠ s.tsMs := hdcross t ht s (List.mem_cons_self s v) hh
      have hlt : s.tsMs < t.tsMs := lt_of_le_of_ne hle (Ne.symm hne)
      simp [hh, hlt]
    · simp [hh]
  have hB : (s :: v).filter (fun t => t.host == s.host && s.tsMs < t.tsMs) = [] := by
    rw [List.filter_cons, if_neg (by simp)]
    rw [List.filter_eq_nil_iff]
    intro t ht
    rcases List.pairwise_cons.mp hssv with ⟨hsv, _⟩
    rcases List.pairwise_cons.mp hdsv with ⟨hdv, _⟩
    by_cases hh : t.host = s.host
    · have hle : t.tsMs ≤ s.tsMs := hsv t ht
      have hne : s.tsMs ≠ t.tsMs := hdv t ht hh.symm
      have : ¬(s.tsMs < t.tsMs) := by omega
      simp [this]
    · simp [hh]
  rw [hA, hB, List.length_append, List.length_nil]
  omega

theorem hostIndexAt_eq_newerCount {snaps : List SnapshotMetadata}
    (hsort : List.Pairwise tsDescRel snaps) (hdist : HostTsDistinct snaps)
    {i : Nat} (hi : i < snaps.length) :
    hostIndexAt snaps i (snaps.get ⟨i, hi⟩) =
      newerCount snaps (snaps.get ⟨i, hi⟩) := by
  have hdrop : snaps.drop i = snaps.get ⟨i, hi⟩ :: snaps.drop (i + 1) := by
    rw [List.drop_eq_getElem_cons hi]
    rfl
  obtain ⟨u, v, s, hsplit, hulen, hs⟩ :
      ∃ u v s, snaps = u ++ s :: v ∧ u.length = i ∧ snaps.get ⟨i, hi⟩ = s := by
    refine ⟨snaps.take i, snaps.drop (i + 1), snaps.get ⟨i, hi⟩, ?_, ?_, rfl⟩
    · conv_lhs => rw [← List.take_append_drop i snaps, hdrop]
    · rw [List.length_take]
      omega
  subst hsplit
  rw [hs]
  unfold hostIndexAt
  have htake : (u ++ s :: v).take i = u := by
    rw [← hulen]
    exact List.take_left u (s :: v)
  rw [htake]
  exact hostIndex_eq_newerCount_split u v s hsort hdist

theorem listSnapshots_pairwise (log : List SnapshotMetadata)
    (hostName : Option String) (limit : Nat) :
    List.Pairwise tsDescRel (listSnapshots log hostName limit) := by
  unfold listSnapshots
  exact List.Pairwise.sublist (List.take_sublist _ _)
    (List.sorted_insertionSort tsDescRel _)

/-- Which records `cleanup` selects among the loaded ones, in spec terms: with
distinct per-host timestamps, exactly those that are not among the
`keepMinCount` most recent of their host (at least `keepMinCount` strictly
newer same-host records) and are older than the cutoff. -/
theorem mem_cleanupRemovedOf_iff {ret : SnapshotRetention} {now : Nat}
    {snaps : List SnapshotMetadata}
    (hsort : List.Pairwise tsDescRel snaps) (hdist : HostTsDistinct snaps)
    {s : SnapshotMetadata} :
    s ∈ cleanupRemovedOf ret now snaps ↔
      (s ∈ snaps ∧ ret.keepMinCount ≤ newerCount snaps s ∧
        s.tsMs < cutoffMs now ret.maxAgeDays) := by
  unfold cleanupRemovedOf
  constructor
  · intro h
    obtain ⟨⟨i, t⟩, hmem, rfl⟩ := List.mem_map.mp h
    obtain ⟨henum, hcond⟩ := List.mem_filter.mp hmem
    have hget := List.mk_mem_enum_iff_getElem?.mp henum
    obtain ⟨hi, hgeti⟩ := List.getElem?_eq_some.mp hget
    have hcond' : ret.keepMinCount ≤ hostIndexAt snaps i t ∧
        t.tsMs < cutoffMs now ret.maxAgeDays := by
      simpa using hcond
    have hidx : hostIndexAt snaps i t = newerCount snaps t := by
      have h2 := hostIndexAt_eq_newerCount hsort hdist hi
      rw [List.get_eq_getElem] at h2
      rw [hgeti] at h2
      exact h2
    exact ⟨List.getElem?_mem hget, hidx ▸ hcond'.1, hcond'.2⟩
  · rintro ⟨hmem, hk, hage⟩
    obtain ⟨i, hi, hgeti⟩ := List.mem_iff_getElem.mp hmem
    refine List.mem_map.mpr ⟨(i, s), List.mem_filter.mpr ⟨?_, ?_⟩, rfl⟩
    · exact List.mk_mem_enum_iff_getElem?.mpr
        (List.getElem?_eq_some.mpr ⟨hi, hgeti⟩)
    · have hidx : hostIndexAt snaps i s = newerCount snaps s := by
        have h2 := hostIndexAt_eq_newerCount hsort hdist hi
        rw [List.get_eq_getElem] at h2
        rw [hgeti] at h2
        exact h2
      simp only [hidx]
      simp [hk, hage]

/-- C1 (amended): `cleanup` loads at most the 10000 most recent matching
records (`list(hostName, 10000)`); among those, assuming per-host distinct
creation timestamps, it removes exactly the records that are both outside the
`keepMinCount` most recent of their host and older than `now - maxAgeDays` —
in particular the `keepMinCount` most recent per host and every younger
record are untouched — and it returns the number of records so removed.
Records beyond the 10000-record read cap are never removed, whatever their
age. -/
theorem snapshot_cleanup_retention (ret : SnapshotRetention) (now : Nat)
    (log : List SnapshotMetadata) (hostName : Option String)
    (hdist : HostTsDistinct (listSnapshots log hostName 10000)) :
    (∀ s, s ∈ cleanupRemoved ret now log hostName ↔
      (s ∈ listSnapshots log hostName 10000 ∧
        ret.keepMinCount ≤ newerCount (listSnapshots log hostName 10000) s ∧
        s.tsMs < cutoffMs now ret.maxAgeDays)) ∧
    cleanupCount ret now log hostName =
      (cleanupRemoved ret now log hostName).length ∧
    (∀ s ∈ cleanupRemoved ret now log hostName, s ∈ log) :=
  ⟨fun _ => mem_cleanupRemovedOf_iff (listSnapshots_pairwise log hostName 10000)
      hdist,
    rfl,
    fun _ hs => mem_log_of_mem_listSnapshots (mem_cleanupRemoved_subset hs)⟩

/-- Witness for C1's amended theorem on the concrete two-record store. -/
theorem snapshot_cleanup_retention_witness :
    (∀ s, s ∈ cleanupRemoved exRet exNow exLog none ↔
      (s ∈ listSnapshots exLog none 10000 ∧
        exRet.keepMinCount ≤ newerCount (listSnapshots exLog none 10000) s ∧
        s.tsMs < cutoffMs exNow exRet.maxAgeDays)) ∧
    cleanupCount exRet exNow exLog none =
      (cleanupRemoved exRet exNow exLog none).length ∧
    (∀ s ∈ cleanupRemoved exRet exNow exLog none, s ∈ exLog) :=
  snapshot_cleanup_retention exRet exNow exLog none
    (by unfold HostTsDistinct; decide)

/-! ### The 10000-record read cap of `cleanup` -/

def capSnap (i : Nat) : SnapshotMetadata :=
  { tsMs := 20000 - i, id := toString i, type := .tar, host := "h",
    path := "/d", backup := some "/b" }

/-- A log of `n` tar records for one host, already newest-first, all older
than the cutoff used below. -/
def capLog (n : Nat) : List SnapshotMetadata :=
  (List.range n).map capSnap

def capRet : SnapshotRetention :=
  { maxAgeDays := 0, maxSizeMB := 100, keepMinCount := 0 }

theorem capLog_pairwise (n : Nat) : List.Pairwise tsDescRel (capLog n) := by
  unfold capLog
  refine List.Pairwise.map capSnap ?_ (List.pairwise_lt_range n)
  intro i j hij
  exact Nat.sub_le_sub_left (Nat.le_of_lt hij) 20000

theorem capSnap_ts_lt (s : SnapshotMetadata) {n : Nat} (hs : s ∈ capLog n) :
    s.tsMs < 30000 := by
  obtain ⟨i, _, rfl⟩ := List.mem_map.mp hs
  have : 20000 - i ≤ 20000 := Nat.sub_le _ _
  simpa [capSnap] using Nat.lt_of_le_of_lt this (by omega)

theorem listSnapshots_capLog (n : Nat) :
    listSnapshots (capLog n) none 10000 = capLog (min 10000 n) := by
  show (sortByTsDesc (capLog n)).take 10000 = capLog (min 10000 n)
  unfold sortByTsDesc
  rw [List.Sorted.insertionSort_eq (capLog_pairwise n)]
  unfold capLog
  rw [← List.map_take, List.take_range]

theorem cleanupRemovedOf_capLog (m : Nat) :
    cleanupRemovedOf capRet 30000 (capLog m) = capLog m := by
  unfold cleanupRemovedOf
  rw [List.filter_eq_self.mpr, List.enum_map_snd]
  intro p hp
  have hmem : p.2 ∈ capLog m := by
    have := List.mk_mem_enum_iff_getElem?.mp (show (p.1, p.2) ∈ (capLog m).enum by
      simpa using hp)
    exact List.getElem?_mem this
  have hts : p.2.tsMs < 30000 := capSnap_ts_lt p.2 hmem
  simp [capRet, cutoffMs, hts]

theorem cleanupRemoved_capLog (n : Nat) :
    cleanupRemoved capRet 30000 (capLog n) none = capLog (min 10000 n) := by
  unfold cleanupRemoved
  rw [listSnapshots_capLog, cleanupRemovedOf_capLog]

/-- C1 counterexample.  A log of 10001 records of one host, all older than the
cutoff, with `keepMinCount = 0`: the claim as stated demands that every one of
the 10001 records be removed and that 10001 be returned, but `cleanup` reads
through `list(hostName, 10000)` and so never sees the oldest record — it
removes 10000 records, returns 10000, and the oldest record, although older
than `now - maxAgeDays` and protected by nothing, is not removed. -/
theorem snapshot_cleanup_cap_cex :
    capSnap 10000 ∈ capLog 10001 ∧
    (capSnap 10000).tsMs < cutoffMs 30000 capRet.maxAgeDays ∧
    capRet.keepMinCount = 0 ∧
    capSnap 10000 ∉ cleanupRemoved capRet 30000 (capLog 10001) none ∧
    cleanupCount capRet 30000 (capLog 10001) none = 10000 ∧
    ((capLog 10001).filter
      (fun s => s.tsMs < cutoffMs 30000 capRet.maxAgeDays)).length = 10001 := by
  refine ⟨?_, ?_, rfl, ?_, ?_, ?_⟩
  · exact List.mem_map.mpr ⟨10000, List.mem_range.mpr (by omega), rfl⟩
  · simp [capSnap, cutoffMs, capRet]
  · rw [cleanupRemoved_capLog]
    intro hmem
    obtain ⟨i, hi, heq⟩ := List.mem_map.mp hmem
    have hts := congrArg SnapshotMetadata.tsMs heq
    have hi' := List.mem_range.mp hi
    simp only [capSnap] at hts
    omega
  · unfold cleanupCount
    rw [cleanupRemoved_capLog]
    simp [capLog]
  · rw [List.filter_eq_self.mpr]
    · simp [capLog]
    · intro s hs
      have := capSnap_ts_lt s hs
      simpa [cutoffMs, capRet] using this
